import Mathlib

/-
Verification of the LoneCodeGuardian pull-request review action.

The TypeScript sources are shallowly embedded: strings become `List Char`,
JavaScript maps become association lists, fallible asynchronous calls become
`Except`-valued oracles, and the bounded loops of the orchestrator become
structurally recursive Lean functions.  Every definition mirrors one place in
the sources (named in its doc comment); theorems at the end settle the
specification claims against these definitions.
-/

namespace LoneCodeGuardian

/-- Strings are embedded as lists of characters so that splitting, trimming
and searching can be reasoned about by structural induction. -/
abbrev Str := List Char

/-- Converts a Lean string literal to the embedded representation. -/
def str (s : String) : Str := s.data

/-- Decimal rendering of a natural number, as produced by JavaScript template
interpolation of a non-negative integer. -/
def natToStr (n : Nat) : Str := (toString n).data

/-- Whitespace test used by `trimStr`; models the characters JavaScript's
`String.prototype.trim` removes that can occur in this code base. -/
def wsChar (c : Char) : Bool :=
  c = ' ' || c = '\t' || c = '\n' || c = '\r'

/-- JavaScript `s.trim()`: drops whitespace from both ends. -/
def trimStr (l : Str) : Str :=
  ((l.dropWhile wsChar).reverse.dropWhile wsChar).reverse

/-- JavaScript `s.startsWith(pat)`. -/
def strBegins : Str → Str → Bool
  | _, [] => true
  | [], _ :: _ => false
  | c :: cs, p :: ps => c = p && strBegins cs ps

/-- JavaScript `s.endsWith(pat)`. -/
def strEnds (l pat : Str) : Bool :=
  strBegins l.reverse pat.reverse

/-- JavaScript `s.split(sep)[0]`: the characters before the first occurrence
of `sep` (the whole string when `sep` does not occur). -/
def takeBeforeSep (sep : Str) : Str → Str
  | [] => []
  | c :: rest =>
      if strBegins (c :: rest) sep then [] else c :: takeBeforeSep sep rest

/-- JavaScript `s.replace(pat, rep)` with a plain-string pattern: replaces
only the first occurrence, returns the string unchanged when absent. -/
def replaceFirstStr (pat rep : Str) : Str → Str
  | [] => if strBegins [] pat then rep else []
  | c :: rest =>
      if strBegins (c :: rest) pat then rep ++ (c :: rest).drop pat.length
      else c :: replaceFirstStr pat rep rest

/-- JavaScript `s.split(c)` for a single-character separator. -/
def splitChar (sep : Char) (l : Str) : List Str :=
  l.foldr
    (fun c acc =>
      if c = sep then [] :: acc
      else
        match acc with
        | [] => [[c]]
        | h :: t => (c :: h) :: t)
    [[]]

/-- JavaScript `s.includes(pat)`. -/
def hasSubstr : Str → Str → Bool
  | [], pat => strBegins [] pat
  | c :: rest, pat => strBegins (c :: rest) pat || hasSubstr rest pat

/-- Number of lines of a file body, as computed by `content.split("\n").length`
in the sources. -/
def lineCount (content : Str) : Nat :=
  (splitChar '\n' content).length

/-- JavaScript `parts.join(sep)`. -/
def joinSep (sep : Str) : List Str → Str
  | [] => []
  | [x] => x
  | x :: y :: rest => x ++ sep ++ joinSep sep (y :: rest)

/-- Concatenation of a list of strings (a `join("")`). -/
def strConcat (l : List Str) : Str := l.foldr (· ++ ·) []

/-- JavaScript `s.toUpperCase()` restricted to ASCII content. -/
def upperStr (l : Str) : Str := l.map Char.toUpper

/-- JavaScript `s.charAt(0).toUpperCase() + s.slice(1)`. -/
def capitalizeStr : Str → Str
  | [] => []
  | c :: r => Char.toUpper c :: r

section StrLemmas

/-- A string extended on the right still begins with itself. -/
theorem strBegins_append_self (p x : Str) : strBegins (p ++ x) p = true := by
  induction p with
  | nil => cases x <;> rfl
  | cons c cs ih => simp [strBegins, ih]

/-- `takeBeforeSep` recovers the part before the separator when the part
contains no character equal to the separator's head. -/
theorem takeBeforeSep_append (h0 : Char) (hs a b : Str)
    (ha : ∀ c ∈ a, c ≠ h0) :
    takeBeforeSep (h0 :: hs) (a ++ (h0 :: hs) ++ b) = a := by
  induction a with
  | nil =>
      simp only [List.nil_append, takeBeforeSep]
      rw [if_pos]
      exact strBegins_append_self (h0 :: hs) b
  | cons c cs ih =>
      have hc : c ≠ h0 := ha c (List.mem_cons_self c cs)
      have ih2 := ih (fun x hx => ha x (List.mem_cons_of_mem c hx))
      rw [List.append_assoc, List.cons_append] at ih2
      simp [takeBeforeSep, strBegins, hc, ih2]

/-- When the string begins with the pattern, `replaceFirstStr` substitutes at
the front. -/
theorem replaceFirstStr_of_begins (pat rep l : Str)
    (h : strBegins l pat = true) :
    replaceFirstStr pat rep l = rep ++ l.drop pat.length := by
  cases l with
  | nil =>
      cases pat with
      | nil => simp [replaceFirstStr, strBegins]
      | cons p ps => simp [strBegins] at h
  | cons c cs => simp [replaceFirstStr, h]

/-- Dropping the pattern's length from a string that starts with the pattern
leaves the remainder. -/
theorem drop_append_self (p x : Str) : (p ++ x).drop p.length = x := by
  simp

/-- `dropWhile` is the identity on a list whose head fails the predicate. -/
theorem dropWhile_eq_self_of_all (p : Char → Bool) (l : Str)
    (h : ∀ c ∈ l, p c = false) : l.dropWhile p = l := by
  cases l with
  | nil => rfl
  | cons c cs => simp [List.dropWhile, h c (List.mem_cons_self c cs)]

/-- Trimming a string with no whitespace characters is the identity. -/
theorem trimStr_of_no_ws (l : Str) (h : ∀ c ∈ l, wsChar c = false) :
    trimStr l = l := by
  unfold trimStr
  rw [dropWhile_eq_self_of_all wsChar l h,
      dropWhile_eq_self_of_all wsChar l.reverse
        (fun c hc => h c (List.mem_reverse.mp hc)),
      List.reverse_reverse]

/-- `takeBeforeSep` is the identity when the separator's head never occurs. -/
theorem takeBeforeSep_of_no_occ (h0 : Char) (hs l : Str)
    (h : ∀ c ∈ l, c ≠ h0) : takeBeforeSep (h0 :: hs) l = l := by
  induction l with
  | nil => rfl
  | cons c cs ih =>
      have hc : c ≠ h0 := h c (List.mem_cons_self c cs)
      simp only [takeBeforeSep]
      rw [if_neg, ih (fun x hx => h x (List.mem_cons_of_mem c hx))]
      simp [strBegins, hc]

/-- A string that begins with the pattern contains it. -/
theorem hasSubstr_of_begins (l pat : Str) (h : strBegins l pat = true) :
    hasSubstr l pat = true := by
  cases l with
  | nil => simpa [hasSubstr] using h
  | cons c cs => simp [hasSubstr, h]

/-- A pattern occurring in the middle of a string is found by `hasSubstr`. -/
theorem hasSubstr_append_mid (a pat b : Str) :
    hasSubstr (a ++ pat ++ b) pat = true := by
  induction a with
  | nil =>
      exact hasSubstr_of_begins (pat ++ b) pat (strBegins_append_self pat b)
  | cons c cs ih =>
      have ih2 : hasSubstr (cs ++ (pat ++ b)) pat = true := by
        rw [← List.append_assoc]; exact ih
      simp [hasSubstr, ih2]

/-- A list starting with a nonempty prefix is nonempty. -/
theorem append_ne_nil_left (a b : Str) (h : a ≠ []) : a ++ b ≠ [] := by
  cases a with
  | nil => exact absurd rfl h
  | cons c cs => simp

end StrLemmas

/-! Constants from `src/types/constants.ts`. -/

/-- `AI_REVIEW_COMMENT_PREFIX` in `src/types/constants.ts`. -/
def aiReviewCommentMarker : Str := str "AI review done up to commit: "

/-- `SUMMARY_SEPARATOR` in `src/types/constants.ts`. -/
def summarySeparator : Str := str "\n\n### AI Review Summary:\n"

/-- `FileStatus` in `src/types/constants.ts`. -/
inductive FileStatus where
  | added | modified | removed | renamed | copied | changed | unchanged
deriving DecidableEq, Repr

/-- `ChangedFile` in `src/types/constants.ts`. -/
structure ChangedFile where
  filename : Str
  status : FileStatus
  additions : Nat
  deletions : Nat
  changes : Nat
  patch : Option Str
deriving DecidableEq, Repr

/-! The file filter, `getFilteredChangedFiles` in
`src/config/input-processor.ts` (lines 331-385). -/

/-- Backslash-to-slash normalization, `s.replace(/\\/g, "/")`. -/
def normalizePath (f : Str) : Str :=
  f.map (fun c => if c = '\\' then '/' else c)

/-- One token of the comma-separated filter inputs after the `stringToArray`
normalization in `getFilteredChangedFiles`: trim, normalize separators, and
append a trailing `/` unless the token starts with `.` or already ends
with `/`. -/
def normalizeToken (t : Str) : Str :=
  let n := normalizePath (trimStr t)
  if strBegins n (str ".") then n
  else if strEnds n (str "/") then n
  else n ++ str "/"

/-- `stringToArray` in `getFilteredChangedFiles`: `undefined` and the empty
string give no tokens, otherwise split on commas, normalize each token and
drop empty results. -/
def stringToArray : Option Str → List Str
  | none => []
  | some s =>
      if s = [] then []
      else ((splitChar ',' s).map normalizeToken).filter (fun t => !t.isEmpty)

/-- `isFileToReview` in `getFilteredChangedFiles`: extension lists are matched
with `endsWith`, path lists with `startsWith`; empty include lists match
everything, exclude lists apply when nonempty. -/
def isFileToReview (incExt excExt incPaths excPaths : List Str)
    (filename : Str) : Bool :=
  let nf := normalizePath filename
  let hasValidExtension := incExt.isEmpty || incExt.any (fun e => strEnds nf e)
  let hasExcludedExtension :=
    !excExt.isEmpty && excExt.any (fun e => strEnds nf e)
  let isInIncludedPath :=
    incPaths.isEmpty || incPaths.any (fun p => strBegins nf p)
  let isInExcludedPath :=
    !excPaths.isEmpty && excPaths.any (fun p => strBegins nf p)
  hasValidExtension && !hasExcludedExtension && isInIncludedPath &&
    !isInExcludedPath

/-- `getFilteredChangedFiles` in `src/config/input-processor.ts`: the filter
over the changed files of the pull request. -/
def getFilteredChangedFiles (changedFiles : List ChangedFile)
    (includeExtensions excludeExtensions includePaths excludePaths :
      Option Str) : List ChangedFile :=
  let incExt := stringToArray includeExtensions
  let excExt := stringToArray excludeExtensions
  let incPaths := stringToArray includePaths
  let excPaths := stringToArray excludePaths
  changedFiles.filter (fun file =>
    isFileToReview incExt excExt incPaths excPaths
      (normalizePath file.filename))

/-- The claim's matching rule, written from the claim's own words: a token
starting with `.` matches by suffix, any other token is auto-suffixed with
`/` and matched as a path prefix. -/
def claimTokenMatches (token nf : Str) : Bool :=
  if strBegins token (str ".") then strEnds nf token
  else strBegins nf token

/-- The filter predicate exactly as claim C8 states it: extension entries
match per `claimTokenMatches` (shape-driven), path entries match as path
prefixes, with empty include lists accepting everything. -/
def claimC8KeepsFile
    (includeExtensions excludeExtensions includePaths excludePaths :
      Option Str) (filename : Str) : Prop :=
  let nf := normalizePath filename
  let incExt := stringToArray includeExtensions
  let excExt := stringToArray excludeExtensions
  let incPaths := stringToArray includePaths
  let excPaths := stringToArray excludePaths
  (incExt = [] ∨ ∃ t ∈ incExt, claimTokenMatches t nf = true) ∧
  (∀ t ∈ excExt, claimTokenMatches t nf = false) ∧
  (incPaths = [] ∨ ∃ t ∈ incPaths, strBegins nf t = true) ∧
  (∀ t ∈ excPaths, strBegins nf t = false)

/-- The corrected filter predicate: identical to the claim except that
extension-list entries always match by suffix of the normalized filename
(the code appends `/` to dot-less tokens and still uses `endsWith`), while
path-list entries always match as prefixes. -/
def amendedC8KeepsFile
    (includeExtensions excludeExtensions includePaths excludePaths :
      Option Str) (filename : Str) : Prop :=
  let nf := normalizePath filename
  let incExt := stringToArray includeExtensions
  let excExt := stringToArray excludeExtensions
  let incPaths := stringToArray includePaths
  let excPaths := stringToArray excludePaths
  (incExt = [] ∨ ∃ t ∈ incExt, strEnds nf t = true) ∧
  (∀ t ∈ excExt, strEnds nf t = false) ∧
  (incPaths = [] ∨ ∃ t ∈ incPaths, strBegins nf t = true) ∧
  (∀ t ∈ excPaths, strBegins nf t = false)

/-! The incremental baseline resolver, `processChangedFiles` in
`src/config/input-processor.ts` (lines 248-278). -/

/-- A pull-request conversation comment; the body can be absent, matching the
optional-chaining access `comment?.body` in the source. -/
structure PRComment where
  body : Option Str
deriving DecidableEq, Repr

/-- The marker-extraction step of `processChangedFiles`: take the text before
the summary separator, strip the first occurrence of the marker, trim, and
when the remainder is nonempty keep its first space-separated word. -/
def extractBaseFromBody (body : Str) : Option Str :=
  let newBase :=
    trimStr (replaceFirstStr aiReviewCommentMarker []
      (takeBeforeSep summarySeparator body))
  if newBase.isEmpty then none
  else some (takeBeforeSep (str " ") newBase)

/-- Whether a comment is a prior review comment: its body exists and starts
with the marker. -/
def isReviewComment (c : PRComment) : Bool :=
  match c.body with
  | some b => strBegins b aiReviewCommentMarker
  | none => false

/-- The baseline resolution of `processChangedFiles`: scan the comments in
reverse order for the most recent review comment; when its extracted commit
token is nonempty it becomes the new base, otherwise the default base
commit is kept. -/
def resolveBaseline (comments : List PRComment) (defaultBase : Str) : Str :=
  match comments.reverse.find? isReviewComment with
  | some c =>
      match c.body with
      | some b =>
          match extractBaseFromBody b with
          | some nb => nb
          | none => defaultBase
      | none => defaultBase
  | none => defaultBase

/-- The summary comment body posted by `main` in `src/setup.ts`
(`AI_REVIEW_COMMENT_PREFIX + headCommit + SUMMARY_SEPARATOR + summary`). -/
def buildSummaryCommentBody (headCommit summary : Str) : Str :=
  aiReviewCommentMarker ++ headCommit ++ summarySeparator ++ summary

/-! The issue data model of the per-file analysis loop
(`ReviewStepSchema` and `CodeReviewSchema` in the Anthropic agent). -/

/-- Issue severity (`z.enum(["low","medium","high"])`). -/
inductive Severity where
  | low | medium | high
deriving DecidableEq, Repr, BEq

/-- The wire string of a severity value. -/
def severityStr : Severity → Str
  | .low => str "low"
  | .medium => str "medium"
  | .high => str "high"

/-- Issue category (the eight-element `z.enum` of the review schemas). -/
inductive Category where
  | security | performance | bug | typeSafety | errorHandling
  | maintainability | bestPractice | other
deriving DecidableEq, Repr, BEq

/-- The wire string of a category value. -/
def categoryStr : Category → Str
  | .security => str "security"
  | .performance => str "performance"
  | .bug => str "bug"
  | .typeSafety => str "type-safety"
  | .errorHandling => str "error-handling"
  | .maintainability => str "maintainability"
  | .bestPractice => str "best-practice"
  | .other => str "other"

/-- An issue reported by one analysis step (the issue object of
`ReviewStepSchema`).  Line numbers are embedded as integers so that the
validation guards of the source remain meaningful. -/
structure Issue where
  lineStart : Int
  lineEnd : Int
  description : Str
  severity : Severity
  category : Category
  suggestedFix : Option Str
  suggestDiff : Bool
deriving DecidableEq, Repr

/-- One step of the structured analysis (`ReviewStepSchema`); only the fields
driving the loop and the postings are carried. -/
structure ReviewStep where
  analysisComplete : Bool
  issues : List Issue
deriving DecidableEq, Repr

/-- `formatSuggestedChange` in the Anthropic agent (part of the per-file-loop
draft): a severity/category header followed by a GitHub suggestion block. -/
def formatSuggestedChange (description : Str) (severity : Severity)
    (category : Category) (suggestedFix : Str) : Str :=
  str "**" ++ upperStr (severityStr severity) ++ str " Severity " ++
    upperStr (categoryStr category) ++ str " Issue**: " ++ description ++
    str "\n\n```suggestion\n" ++ suggestedFix ++ str "\n```"

/-- The comment text built for one issue in the per-file analysis loop: the
suggestion-block form when a fix is present and flagged as a diff, otherwise
the default template with an optional fenced fix block. -/
def formatIssueComment (issue : Issue) : Str :=
  match issue.suggestedFix, issue.suggestDiff with
  | some fix, true =>
      formatSuggestedChange issue.description issue.severity issue.category fix
  | _, _ =>
      str "**" ++ upperStr (severityStr issue.severity) ++ str " Severity " ++
        upperStr (categoryStr issue.category) ++ str " Issue**: " ++
        issue.description ++
        (match issue.suggestedFix with
         | some fix => str "\n\n**Suggested Fix**:\n```\n" ++ fix ++ str "\n```"
         | none => [])

/-- The guard of the `fileCommentator` installed by `setupReviewTools` in
`src/config/input-processor.ts` (lines 433-484): the posting reaches
`createReviewComment` exactly when the comment text and path are nonempty
after trimming, the head commit is known, and the line numbers satisfy
`1 ≤ start ∧ start ≤ end`.  Nothing else is validated. -/
def commentPosted (comment filePath : Str) (headKnown : Bool)
    (s e : Int) : Bool :=
  !(trimStr comment).isEmpty && !(trimStr filePath).isEmpty && headKnown &&
    !(decide (s < 1) || decide (e < s))

/-- Whether the posting attempt for one issue of the current file succeeds
(the `fileCommentator` call made by the analysis loop for each issue). -/
def issuePosted (filename : Str) (headKnown : Bool) (issue : Issue) : Bool :=
  commentPosted (formatIssueComment issue) filename headKnown
    issue.lineStart issue.lineEnd

/-! The bounded per-file analysis loop of `doReview` in the per-file-loop
Anthropic agent draft (the orchestrator the specification describes). -/

/-- `maxSteps` in `doReview`: the per-file step limit of the analysis loop. -/
def maxStepsPerFile : Nat := 10

/-- The `while (!analysisComplete && stepCount < maxSteps)` loop for one
file, embedded as a down-counter on the remaining steps (`remaining =
maxSteps - stepCount`).  The oracle is the `generateObject` call, indexed by
the zero-based step number; a step error sets `analysisComplete` (the loop
swallows it with a warning).  Returns the number of oracle calls and the
successfully posted `(path, issue)` pairs in order. -/
def analyzeFile (filename : Str) (oracle : Nat → Except Str ReviewStep)
    (headKnown : Bool) : Nat → Bool → Nat × List (Str × Issue)
  | _, true => (0, [])
  | 0, false => (0, [])
  | r + 1, false =>
      let res := oracle (maxStepsPerFile - (r + 1))
      let stop :=
        match res with
        | .ok st => st.analysisComplete
        | .error _ => true
      let posts :=
        match res with
        | .ok st =>
            st.issues.filterMap (fun iss =>
              if issuePosted filename headKnown iss then some (filename, iss)
              else none)
        | .error _ => []
      let rest := analyzeFile filename oracle headKnown r stop
      (1 + rest.1, posts ++ rest.2)

/-- The per-file iteration of `doReview`: each filtered file is fetched
first (`fileContentGetter`); on fetch failure the file is skipped
(`continue`), otherwise the bounded analysis loop runs.  Returns the total
number of analysis steps and all posted comments of the run. -/
def reviewRun (fetch : Str → Except Str Str)
    (oracle : Str → Nat → Except Str ReviewStep) (headKnown : Bool) :
    List ChangedFile → Nat × List (Str × Issue)
  | [] => (0, [])
  | f :: rest =>
      let tail := reviewRun fetch oracle headKnown rest
      match fetch f.filename with
      | .error _ => tail
      | .ok _ =>
          let one := analyzeFile f.filename (oracle f.filename) headKnown
            maxStepsPerFile false
          (one.1 + tail.1, one.2 ++ tail.2)

/-! The top-level retry loop wrapped around the whole provider interaction
(`doReview` in `src/ai/anthropic-agent.ts` lines 212-239 and
`src/ai/google-agent.ts` lines 93-120; the per-file-loop draft repeats the
same code). -/

/-- `maxRetries` in `doReview`. -/
def maxRetries : Nat := 3

/-- `initialBackoff` in `doReview` (milliseconds). -/
def initialBackoff : Nat := 1000

/-- The classifier of `doReview`'s catch block:
`errorMessage.includes("rate limit") || errorMessage.includes("quota")`. -/
def isRateLimitError (msg : Str) : Bool :=
  hasSubstr msg (str "rate limit") || hasSubstr msg (str "quota")

/-- An observable delay of the retry loop: the fixed rate-limit cooldown or
a computed exponential backoff, in milliseconds. -/
inductive RunEvent where
  | cooldown (ms : Nat)
  | backoff (ms : Nat)
deriving DecidableEq, Repr

/-- Whether an event is a backoff delay. -/
def RunEvent.isBackoff : RunEvent → Bool
  | .backoff _ => true
  | .cooldown _ => false

/-- The `for (let retries = 0; retries < maxRetries; retries++)` loop of
`doReview`, embedded as a down-counter on the remaining attempts
(`remaining = maxRetries - retries`).  `attempt` is the whole loop body up
to `break` (the provider interaction), yielding the review summary or an
error message.  On failure a rate-limit message first incurs the fixed
10000 ms cooldown; on the last attempt the error is rethrown, otherwise the
backoff `initialBackoff * 2 ^ retries + jitter retries` is waited and the
loop continues.  Returns the delays observed, the number of attempts made
and the outcome. -/
def retryFrom (attempt : Nat → Except Str Str) (jitter : Nat → Nat) :
    Nat → List RunEvent × Nat × Except Str Str
  | 0 => ([], 0, .error [])
  | r + 1 =>
      let idx := maxRetries - (r + 1)
      match attempt idx with
      | .ok summary => ([], 1, .ok summary)
      | .error msg =>
          let cool :=
            if isRateLimitError msg then [RunEvent.cooldown 10000] else []
          if r = 0 then (cool, 1, .error msg)
          else
            let b := initialBackoff * 2 ^ idx + jitter idx
            let rest := retryFrom attempt jitter r
            (cool ++ RunEvent.backoff b :: rest.1, 1 + rest.2.1, rest.2.2)

/-- The retry loop entered with the full attempt budget. -/
def doReviewRetry (attempt : Nat → Except Str Str) (jitter : Nat → Nat) :
    List RunEvent × Nat × Except Str Str :=
  retryFrom attempt jitter maxRetries

/-- The outer catch of `doReview`: a failure escaping the retry loop is
rewrapped as `Failed to complete code review with Anthropic: ...` and
propagated to the caller. -/
def doReviewOutcome (attempt : Nat → Except Str Str) (jitter : Nat → Nat) :
    Except Str Str :=
  match (doReviewRetry attempt jitter).2.2 with
  | .ok s => .ok s
  | .error m =>
      .error (str "Failed to complete code review with Anthropic: " ++ m)

/-! The summary phase of the per-file-loop `doReview` draft (its step 3,
lines 471-502): one schema-validated aggregation call, a deterministic
Markdown rendering, and a synthesized fallback when the call throws. -/

/-- One reviewed file of `CodeReviewSchema`. -/
structure FileReview where
  filename : Str
  issues : List Issue
  summary : Str
deriving DecidableEq, Repr

/-- The aggregated result of `CodeReviewSchema`. -/
structure CodeReview where
  summary : Str
  filesReviewed : List FileReview
  overallSeverity : Severity
  recommendations : List Str
deriving DecidableEq, Repr

/-- All issues of the review tagged with their file, in encounter order
(files in order, issues of a file in order). -/
def allIssueEntries (cr : CodeReview) : List (Str × Issue) :=
  cr.filesReviewed.flatMap (fun f => f.issues.map (fun i => (f.filename, i)))

/-- First-occurrence deduplication, modelling the insertion order of the
keys of a JavaScript object literal. -/
def dedupFirst (seen : List Category) : List Category → List Category
  | [] => []
  | c :: r =>
      if seen.contains c then dedupFirst seen r
      else c :: dedupFirst (c :: seen) r

/-- Lexicographic comparison of embedded strings by character code, the
default JavaScript `Array.prototype.sort` comparator on strings. -/
def strLe : Str → Str → Bool
  | [], _ => true
  | _ :: _, [] => false
  | a :: as, b :: bs =>
      if a.val < b.val then true
      else if b.val < a.val then false
      else strLe as bs

/-- Insertion step of the category sort. -/
def insertSorted (x : Category) : List Category → List Category
  | [] => [x]
  | y :: r =>
      if strLe (categoryStr x) (categoryStr y) then x :: y :: r
      else y :: insertSorted x r

/-- Sorting the category keys, `Object.keys(categoryCounts).sort()`. -/
def sortCats : List Category → List Category
  | [] => []
  | c :: r => insertSorted c (sortCats r)

/-- One category section of `generateCategorySummary`: a capitalized header
with the issue count, a bullet per issue, then a blank line. -/
def categorySection (cr : CodeReview) (c : Category) : Str :=
  let entries := (allIssueEntries cr).filter (fun e => e.2.category == c)
  str "### " ++ capitalizeStr (categoryStr c) ++ str " (" ++
    natToStr entries.length ++ str ")\n\n" ++
    strConcat (entries.map (fun e =>
      str "- **[" ++ upperStr (severityStr e.2.severity) ++ str "]** " ++
        e.1 ++ str ": " ++ e.2.description ++ str "\n")) ++
    str "\n"

/-- `generateCategorySummary` in the per-file-loop Anthropic agent draft:
distinct categories in first-appearance order, sorted lexicographically,
each rendered as a section. -/
def generateCategorySummary (cr : CodeReview) : Str :=
  strConcat
    ((sortCats (dedupFirst [] ((allIssueEntries cr).map (fun e =>
        e.2.category)))).map (categorySection cr))

/-- The successful-aggregation rendering of the summary (the template
assigned to `reviewSummary` at line 494 of the draft). -/
def renderCodeReviewSummary (cr : CodeReview) : Str :=
  str "# Code Review Summary\n\n" ++ cr.summary ++
    str "\n\n## Details\n\n- **Files Reviewed**: " ++
    joinSep (str ", ") (cr.filesReviewed.map (fun f => f.filename)) ++
    str "\n- **Issues Found**: " ++
    natToStr ((cr.filesReviewed.map (fun f => f.issues.length)).sum) ++
    str "\n- **Severity**: " ++ severityStr cr.overallSeverity ++
    str "\n\n## Issues by Category\n\n" ++ generateCategorySummary cr ++
    str "\n\n## Recommendations\n\n" ++
    joinSep (str "\n") (cr.recommendations.map (fun r => str "- " ++ r)) ++
    str "\n\n## File Summaries\n\n" ++
    joinSep (str "\n\n") (cr.filesReviewed.map (fun f =>
      str "### " ++ f.filename ++ str "\n\n" ++ f.summary ++
        (if f.issues.length > 0 then
          str "\n\n**Issues**: " ++ natToStr f.issues.length
         else [])))

/-- The fallback summary synthesized when the aggregation call throws
(lines 495-502 of the draft): `Reviewed N files and found M issues.` under
the fixed heading. -/
def fallbackSummary (reviewedCount commentsMade : Nat) : Str :=
  str "# Code Review Summary\n\nReviewed " ++ natToStr reviewedCount ++
    str " files and found " ++ natToStr commentsMade ++ str " issues."

/-- The summary phase: render the aggregation result when the
schema-validated call succeeds, otherwise fall back to the synthesized
summary built from the session counters. -/
def summaryPhase (aggregation : Except Str CodeReview)
    (reviewedCount commentsMade : Nat) : Str :=
  match aggregation with
  | .ok cr => renderCodeReviewSummary cr
  | .error _ => fallbackSummary reviewedCount commentsMade

/-! The agent-level `addReviewComment` tool handler, `src/ai/ai-agent.ts`
lines 133-185. -/

/-- `validateLineNumbers` in `src/ai/ai-agent.ts`: the error message for
invalid bounds, or `none` when valid.  The `Number.isInteger` guards of the
source hold by construction in the integer embedding. -/
def validateLineNumbers (s e : Int) : Option Str :=
  if s < 1 then some (str "Error: Start line number must be a positive integer")
  else if e < 1 then some (str "Error: End line number must be a positive integer")
  else if s > e then
    some (str "Error: Start line number cannot be greater than end line number")
  else none

/-- The catch-all error reply of `addReviewComment`. -/
def addReviewCommentFailure (msg : Str) : Str :=
  str "Error! Please ensure that the lines you specify for the comment are part of the DIFF! Error message: " ++
    msg

/-- `addReviewComment` in `src/ai/ai-agent.ts`: validation errors are thrown
and caught locally, the commentator call's failure is caught too, and every
path returns a string.  The commentator's behaviour is passed in as the
`Except` result it would produce. -/
def addReviewComment (commentatorResult : Except Str Unit)
    (s e : Int) : Str :=
  match validateLineNumbers s e with
  | some verr => addReviewCommentFailure verr
  | none =>
      match commentatorResult with
      | .ok _ => str "Success! The review comment has been published."
      | .error m => addReviewCommentFailure m

/-! The content cache, `getFileContentWithCache` in the cached `AIAgent`
variant (the second document of `src/github/github-api.ts`).  The method is
embedded as a small-step machine: one step covers the synchronous code
between two `await` suspension points of the JavaScript event loop, so that
interleavings of concurrent callers can be analysed.  Time is discretized
into the 10 ms polls of `acquireLock`; the 5000 ms timeout is 500 polls. -/

/-- The timeout budget of `acquireLock`: 5000 ms at one poll per 10 ms. -/
def lockTimeoutPolls : Nat := 500

/-- The timeout message thrown by `acquireLock`, as rewrapped by the catch
block of `getFileContentWithCache`. -/
def cacheTimeoutMsg : Str :=
  str "Error getting file content: Timeout while waiting for cache lock"

/-- The slice returned to the caller: `span = 20` context lines around the
requested range of the full cached content, fenced with the file path. -/
def renderSlice (path content : Str) (startLine endLine : Nat) : Str :=
  let lines := splitChar '\n' content
  let startIndex := startLine - 1 - 20
  let endIndex := min lines.length (endLine + 20)
  str "```" ++ path ++ str "\n" ++
    joinSep (str "\n") ((lines.drop startIndex).take (endIndex - startIndex)) ++
    str "\n```"

/-- The resumption point of one `getFileContentWithCache` call.  `waitFirst`
is the first `acquireLock` (before the cache lookup), `fetchWait` is the
suspended upstream fetch after the lock was released, `waitSecond` is the
re-acquisition carrying the fetched content, and the final states carry the
returned slice or the thrown message. -/
inductive SessionPC where
  | waitFirst (polls : Nat)
  | fetchWait
  | waitSecond (polls : Nat) (content : Str)
  | donePC (result : Str)
  | failedPC (msg : Str)
deriving DecidableEq, Repr

/-- One in-flight `getFileContentWithCache` call. -/
structure CacheSession where
  path : Str
  startLine : Nat
  endLine : Nat
  pc : SessionPC
deriving DecidableEq, Repr

/-- The shared state of the agent: the `cacheLock` flag, the `fileCache`
map (an association list with newest binding first, as `Map.set`), the
number of `fileContentGetter` invocations, and the concurrent sessions. -/
structure CacheWorld where
  lockHeld : Bool
  cache : List (Str × Str)
  fetchCount : Nat
  sessions : List CacheSession
deriving DecidableEq, Repr

/-- `fileCache.get(path)` over the association list. -/
def cacheGet (m : List (Str × Str)) (k : Str) : Option Str :=
  match m.find? (fun kv => kv.1 == k) with
  | some kv => some kv.2
  | none => none

/-- One atomic segment of a session.  Acquiring a free lock runs on
synchronously to the next suspension: a cache hit releases and returns the
slice; a miss releases the lock *before* the fetch (`releaseLock()` ahead of
`await this.fileContentGetter`) and suspends.  The fetch resumption
re-acquires, writes the full content to the cache, releases and returns.
An exhausted poll budget throws; the catch block clears a held lock. -/
def stepCacheSession (upstream : Str → Str) (w : CacheWorld)
    (s : CacheSession) : CacheWorld × CacheSession :=
  match s.pc with
  | .donePC _ => (w, s)
  | .failedPC _ => (w, s)
  | .waitFirst p =>
      if w.lockHeld then
        match p with
        | 0 => ({ w with lockHeld := false }, { s with pc := .failedPC cacheTimeoutMsg })
        | q + 1 => (w, { s with pc := .waitFirst q })
      else
        match cacheGet w.cache s.path with
        | some c =>
            (w, { s with pc := .donePC (renderSlice s.path c s.startLine s.endLine) })
        | none =>
            ({ w with fetchCount := w.fetchCount + 1 }, { s with pc := .fetchWait })
  | .fetchWait =>
      (w, { s with pc := .waitSecond lockTimeoutPolls (upstream s.path) })
  | .waitSecond p c =>
      if w.lockHeld then
        match p with
        | 0 => ({ w with lockHeld := false }, { s with pc := .failedPC cacheTimeoutMsg })
        | q + 1 => (w, { s with pc := .waitSecond q c })
      else
        ({ w with cache := (s.path, c) :: w.cache },
          { s with pc := .donePC (renderSlice s.path c s.startLine s.endLine) })

/-- Scheduling session `i` of the world for one atomic segment. -/
def stepCacheWorld (upstream : Str → Str) (w : CacheWorld) (i : Nat) :
    CacheWorld :=
  match w.sessions[i]? with
  | none => w
  | some s =>
      let ws := stepCacheSession upstream w s
      { ws.1 with sessions := w.sessions.set i ws.2 }

/-- Running an interleaving schedule over the cache world. -/
def runCacheSchedule (upstream : Str → Str) (w : CacheWorld)
    (sched : List Nat) : CacheWorld :=
  sched.foldl (stepCacheWorld upstream) w

/-- A fresh session for a path and line range. -/
def freshSession (path : Str) (startLine endLine : Nat) : CacheSession :=
  ⟨path, startLine, endLine, .waitFirst lockTimeoutPolls⟩

/-- Data soundness of a session: any fetched content it carries and any
result it returned come from the upstream content of its own path. -/
def sessionOK (upstream : Str → Str) (s : CacheSession) : Prop :=
  (∀ p c, s.pc = .waitSecond p c → c = upstream s.path) ∧
  (∀ r, s.pc = .donePC r →
    r = renderSlice s.path (upstream s.path) s.startLine s.endLine)

/-- Data soundness of the world: cache entries and sessions agree with the
upstream content. -/
def worldOK (upstream : Str → Str) (w : CacheWorld) : Prop :=
  (∀ kv ∈ w.cache, kv.2 = upstream kv.1) ∧ ∀ s ∈ w.sessions, sessionOK upstream s

/-! The relevance-relocation heuristic of the review orchestrator.
`findBetterMatchingLine` appears in no source file under `src/`; the
definitions below are modelled from the specification (sections 4.3 and 8). -/

/-- Modelled from the spec: the "small stopword set" of the relevance
tokenizer; the spec does not enumerate it, a representative small set of
common English function words is used. -/
def stopwords : List Str :=
  [str "the", str "and", str "for", str "with", str "this", str "that"]

/-- Splitting a string at characters failing a keep-predicate. -/
def splitOnPred (keep : Char → Bool) (l : Str) : List Str :=
  l.foldr
    (fun c acc =>
      if keep c then
        match acc with
        | [] => [[c]]
        | h :: t => (c :: h) :: t
      else [] :: acc)
    [[]]

/-- Modelled from the spec: tokenize by lowercasing, splitting on
non-alphanumeric characters, and dropping words of at most two characters
and stopwords. -/
def tokenize (s : Str) : List Str :=
  ((splitOnPred Char.isAlphanum (s.map Char.toLower)).filter
    (fun w => decide (2 < w.length) && !(stopwords.contains w)))

/-- Modelled from the spec: the declaration keywords of the bonus rule. -/
def declKeywords : List Str :=
  [str "function", str "const", str "let", str "var", str "class"]

/-- Modelled from the spec: whether a line looks like a declaration. -/
def looksLikeDecl (line : Str) : Bool :=
  declKeywords.any (fun k => hasSubstr line k)

/-- Modelled from the spec: the declaration bonus applies when the line
looks like a declaration and an identifier extracted from it (a token that
is not itself a declaration keyword) appears among the description's
tokens. -/
def declBonus (descToks : List Str) (line : Str) : Bool :=
  looksLikeDecl line &&
    (tokenize line).any (fun t =>
      !(declKeywords.contains t) && descToks.contains t)

/-- Modelled from the spec: the number of distinct tokens shared between the
candidate line and the description. -/
def sharedTokenCount (descToks : List Str) (line : Str) : Nat :=
  ((tokenize line).eraseDups.filter (fun t => descToks.contains t)).length

/-- Modelled from the spec: the relevance score of one candidate line,
`2 × |shared tokens|`, `+5` declaration bonus, `−2` short-line penalty. -/
def scoreLine (descToks : List Str) (line : Str) : Int :=
  2 * (sharedTokenCount descToks line : Int) +
    (if declBonus descToks line then 5 else 0) -
    (if (trimStr line).length < 3 then 2 else 0)

/-- The one-based line at a position (empty outside the file). -/
def lineAt (lines : List Str) (n : Nat) : Str := lines.getD (n - 1) []

/-- The ±10-line candidate window around the original line, clamped to the
file. -/
def candidateWindow (orig lineTotal : Nat) : List Nat :=
  let lo := max 1 (orig - 10)
  let hi := min lineTotal (orig + 10)
  (List.range (hi + 1 - lo)).map (fun k => lo + k)

/-- Modelled from the spec: `findBetterMatchingLine` scans the ±10-line
neighborhood of the original line and keeps the candidate with the highest
relevance score; a candidate must score strictly higher than the current
best to displace it, so the original line wins all ties. -/
def findBetterMatchingLine (description : Str) (lines : List Str)
    (orig : Nat) : Nat :=
  let descToks := tokenize description
  (candidateWindow orig lines.length).foldl
    (fun best n =>
      if scoreLine descToks (lineAt lines n) >
          scoreLine descToks (lineAt lines best) then n
      else best)
    orig

/-! Concrete inputs used by counterexamples. -/

/-- Ten changed files whose analysis never completes (claim C1's scenario of
a review with 10 files each claiming `analysisComplete=false` forever). -/
def tenFiles : List ChangedFile :=
  (List.range 10).map (fun i =>
    ⟨str "file" ++ natToStr i ++ str ".ts", .modified, 1, 0, 1, none⟩)

/-- An issue whose start line exceeds the two-line file below. -/
def c2Issue : Issue := ⟨5, 5, str "Possible bug here", .high, .bug, none, false⟩

/-- A changed file for the line-bound counterexample. -/
def c2File : ChangedFile := ⟨str "src/a.ts", .modified, 1, 0, 1, none⟩

/-- The fetched content of `c2File`: exactly two lines. -/
def c2Content : Str := str "const a = 1;\nconst b = 2;"

/-- An analysis oracle reporting `c2Issue` on its first step and finishing. -/
def c2Oracle : Str → Nat → Except Str ReviewStep := fun _ n =>
  if n = 0 then .ok ⟨true, [c2Issue]⟩ else .ok ⟨true, []⟩

/-- Two concurrent cache sessions for the same uncached path. -/
def c3World : CacheWorld :=
  ⟨false, [], 0, [freshSession (str "p") 1 2, freshSession (str "p") 1 2]⟩

/-- The upstream content served for every path in the cache counterexample. -/
def c3Upstream : Str → Str := fun _ => str "a\nb"

/-- The interleaving in which both sessions miss the cache before either
fetch completes: each runs its first segment, then both finish. -/
def c3Schedule : List Nat := [0, 1, 0, 0, 1, 1]

/-- The changed file of the filter counterexample: its path starts with the
dot-less exclude-extension token `test`. -/
def c8File : ChangedFile := ⟨str "test/foo.c", .modified, 1, 0, 1, none⟩

/-! Helper lemmas shared by the claim theorems. -/

/-- Every string begins with the empty pattern. -/
theorem strBegins_nil (l : Str) : strBegins l [] = true := by
  cases l <;> rfl

/-- A string beginning with a pattern still begins with it after appending. -/
theorem strBegins_append_left (pat a b : Str) (h : strBegins a pat = true) :
    strBegins (a ++ b) pat = true := by
  induction pat generalizing a with
  | nil => exact strBegins_nil (a ++ b)
  | cons p ps ih =>
      cases a with
      | nil => simp [strBegins] at h
      | cons c cs =>
          simp only [strBegins, Bool.and_eq_true] at h
          simp [strBegins, h.1, ih cs h.2]

/-- Path normalization is idempotent. -/
theorem normalizePath_idem (f : Str) :
    normalizePath (normalizePath f) = normalizePath f := by
  unfold normalizePath
  rw [List.map_map]
  apply List.map_congr_left
  intro c _
  by_cases hc : c = '\\' <;> simp [hc]

/-- Characters free of whitespace are in particular not newlines or
spaces. -/
theorem no_ws_char (c : Char) (h : wsChar c = false) : c ≠ '\n' ∧ c ≠ ' ' := by
  constructor <;> intro hc <;> subst hc <;> simp [wsChar] at h

end LoneCodeGuardian
namespace LoneCodeGuardian

/-- Claim C10: the agent-level `addReviewComment` tool handler never throws:
a validation failure or a commentator failure becomes a returned string
beginning with `Error!`, and success returns the fixed success string, so a
failed posting never aborts the surrounding review loop. -/
theorem claim_C10_add_review_comment_total :
    ∀ (commentatorResult : Except Str Unit) (s e : Int),
      (addReviewComment commentatorResult s e =
          str "Success! The review comment has been published." ∨
        strBegins (addReviewComment commentatorResult s e)
          (str "Error!") = true) ∧
      (validateLineNumbers s e ≠ none →
        strBegins (addReviewComment commentatorResult s e)
          (str "Error!") = true) ∧
      (∀ m, commentatorResult = .error m →
        strBegins (addReviewComment commentatorResult s e)
          (str "Error!") = true) ∧
      (validateLineNumbers s e = none → commentatorResult = .ok () →
        addReviewComment commentatorResult s e =
          str "Success! The review comment has been published.") := by
  intro commentatorResult s e
  have hfail : ∀ m : Str,
      strBegins (addReviewCommentFailure m) (str "Error!") = true := by
    intro m
    unfold addReviewCommentFailure
    have : str "Error! Please ensure that the lines you specify for the comment are part of the DIFF! Error message: " =
        str "Error!" ++ str " Please ensure that the lines you specify for the comment are part of the DIFF! Error message: " := by
      decide
    rw [this, List.append_assoc]
    exact strBegins_append_left _ _ _ (by decide)
  unfold addReviewComment
  cases hv : validateLineNumbers s e with
  | some verr =>
      refine ⟨Or.inr (hfail verr), fun _ => hfail verr, fun m _ => hfail verr, ?_⟩
      intro h
      simp [hv] at h
  | none =>
      cases commentatorResult with
      | ok u =>
          refine ⟨Or.inl rfl, ?_, ?_, fun _ _ => rfl⟩
          · intro h; exact absurd rfl h
          · intro m hm; cases hm
      | error m =>
          refine ⟨Or.inr (hfail m), fun _ => hfail m, fun m2 _ => hfail m, ?_⟩
          intro _ hok; cases hok

/-- Witness for C10: a posting failure at valid line numbers returns an
`Error!`-string, as does an invalid line range. -/
theorem claim_C10_witness :
    (Except.error (str "boom") : Except Str Unit) = .error (str "boom") ∧
    strBegins (addReviewComment (.error (str "boom")) 1 3)
      (str "Error!") = true :=
  ⟨rfl, (claim_C10_add_review_comment_total (.error (str "boom")) 1 3).2.2.1
    (str "boom") rfl⟩

end LoneCodeGuardian
namespace LoneCodeGuardian

/-- The retry loop makes at most as many attempts as its budget. -/
theorem retryFrom_attempts_le (attempt : Nat → Except Str Str)
    (jitter : Nat → Nat) : ∀ n, (retryFrom attempt jitter n).2.1 ≤ n := by
  intro n
  induction n with
  | zero => simp [retryFrom]
  | succ r ih =>
      simp only [retryFrom]
      cases attempt (maxRetries - (r + 1)) with
      | ok s => simp
      | error msg =>
          by_cases hr : r = 0
          · simp [hr]
          · simp only [if_neg hr]
            omega

/-- Claim C4: the provider interaction is retried at most 3 times; a
rate-limit or quota failure incurs the fixed 10 s cooldown before the
exponential backoff; two failures followed by a success complete the run
with exactly 2 backoff delays and the single summary of the successful
attempt; exhausting all 3 attempts propagates the error to the caller. -/
theorem claim_C4_retry_behavior :
    ∀ (attempt : Nat → Except Str Str) (jitter : Nat → Nat),
      (doReviewRetry attempt jitter).2.1 ≤ 3 ∧
      (∀ m, attempt 0 = .error m → isRateLimitError m = true →
        ∃ tl, (doReviewRetry attempt jitter).1 =
          RunEvent.cooldown 10000 ::
            RunEvent.backoff (initialBackoff * 2 ^ 0 + jitter 0) :: tl) ∧
      (∀ m0 m1 s, attempt 0 = .error m0 → attempt 1 = .error m1 →
        attempt 2 = .ok s →
        (doReviewRetry attempt jitter).2.2 = .ok s ∧
        (doReviewRetry attempt jitter).1.filter RunEvent.isBackoff =
          [RunEvent.backoff (initialBackoff * 2 ^ 0 + jitter 0),
           RunEvent.backoff (initialBackoff * 2 ^ 1 + jitter 1)] ∧
        (doReviewRetry attempt jitter).2.1 = 3) ∧
      (∀ m0 m1 m2, attempt 0 = .error m0 → attempt 1 = .error m1 →
        attempt 2 = .error m2 →
        doReviewOutcome attempt jitter =
          .error (str "Failed to complete code review with Anthropic: " ++ m2)) := by
  intro attempt jitter
  refine ⟨retryFrom_attempts_le attempt jitter 3, ?_, ?_, ?_⟩
  · intro m h0 hrl
    have e3 : (3 : Nat) = 2 + 1 := rfl
    unfold doReviewRetry maxRetries
    rw [e3]
    simp only [retryFrom]
    rw [show maxRetries - (2 + 1) = 0 from rfl, h0]
    simp [hrl]
  · intro m0 m1 s h0 h1 h2
    unfold doReviewRetry maxRetries
    rw [show (3 : Nat) = 2 + 1 from rfl]
    simp only [retryFrom]
    rw [show maxRetries - (2 + 1) = 0 from rfl,
        show maxRetries - (1 + 1) = 1 from rfl,
        show maxRetries - (0 + 1) = 2 from rfl, h0, h1, h2]
    constructor
    · simp
    constructor
    · cases hrl0 : isRateLimitError m0 <;> cases hrl1 : isRateLimitError m1 <;>
        simp [RunEvent.isBackoff, hrl0, hrl1]
    · simp
  · intro m0 m1 m2 h0 h1 h2
    unfold doReviewOutcome doReviewRetry maxRetries
    rw [show (3 : Nat) = 2 + 1 from rfl]
    simp only [retryFrom]
    rw [show maxRetries - (2 + 1) = 0 from rfl,
        show maxRetries - (1 + 1) = 1 from rfl,
        show maxRetries - (0 + 1) = 2 from rfl, h0, h1, h2]
    simp

/-- Witness for C4: a provider that fails twice with plain errors and then
succeeds completes with two backoff delays of 1000 ms and 2000 ms. -/
theorem claim_C4_witness :
    (fun n => if n < 2 then Except.error (str "boom") else Except.ok (str "done") :
        Nat → Except Str Str) 0 = .error (str "boom") ∧
    (doReviewRetry
        (fun n => if n < 2 then .error (str "boom") else .ok (str "done"))
        (fun _ => 0)).2.2 = .ok (str "done") := by
  refine ⟨rfl, ?_⟩
  exact ((claim_C4_retry_behavior
    (fun n => if n < 2 then .error (str "boom") else .ok (str "done"))
    (fun _ => 0)).2.2.1 (str "boom") (str "boom") (str "done")
    rfl rfl rfl).1

end LoneCodeGuardian
namespace LoneCodeGuardian

/-- The summary separator in head-normal form. -/
theorem summarySeparator_cons :
    summarySeparator = '\n' :: str "\n### AI Review Summary:\n" := rfl

/-- No character of the marker is a newline. -/
theorem marker_no_newline : ∀ c ∈ aiReviewCommentMarker, c ≠ '\n' := by decide

/-- Extraction inverts construction of the summary comment body for a
whitespace-free nonempty head commit. -/
theorem extractBase_roundtrip (head summary : Str) (hne : head ≠ [])
    (hws : ∀ c ∈ head, wsChar c = false) :
    extractBaseFromBody (buildSummaryCommentBody head summary) = some head := by
  have hnl : ∀ c ∈ aiReviewCommentMarker ++ head, c ≠ '\n' := by
    intro c hc
    rcases List.mem_append.mp hc with hm | hm
    · exact marker_no_newline c hm
    · exact (no_ws_char c (hws c hm)).1
  have hbody : buildSummaryCommentBody head summary =
      (aiReviewCommentMarker ++ head) ++
        ('\n' :: str "\n### AI Review Summary:\n") ++ summary := by
    unfold buildSummaryCommentBody
    rw [summarySeparator_cons]
  have htake : takeBeforeSep summarySeparator
      (buildSummaryCommentBody head summary) =
      aiReviewCommentMarker ++ head := by
    rw [summarySeparator_cons, hbody]
    exact takeBeforeSep_append '\n' (str "\n### AI Review Summary:\n")
      (aiReviewCommentMarker ++ head) summary hnl
  have hrep : replaceFirstStr aiReviewCommentMarker []
      (aiReviewCommentMarker ++ head) = head := by
    rw [replaceFirstStr_of_begins _ _ _
      (strBegins_append_self aiReviewCommentMarker head)]
    simp
  have hne2 : head.isEmpty = false := by
    cases head with
    | nil => exact absurd rfl hne
    | cons c cs => rfl
  unfold extractBaseFromBody
  rw [htake, hrep, trimStr_of_no_ws head hws]
  show (if head.isEmpty = true then none
    else some (takeBeforeSep (str " ") head)) = some head
  rw [hne2]
  simp only [Bool.false_eq_true, if_false]
  congr 1
  rw [show str " " = ' ' :: [] from rfl]
  exact takeBeforeSep_of_no_occ ' ' [] head
    (fun c hc => (no_ws_char c (hws c hc)).2)

/-- Claim C5: the posted comment body is exactly the marker, the head
commit, the separator and the summary; and resolving the baseline from a
comment list ending in that body yields exactly the head commit, for every
whitespace-free nonempty head commit token. -/
theorem claim_C5_marker_roundtrip :
    ∀ (priorComments : List PRComment) (head summary defaultBase : Str),
      head ≠ [] → (∀ c ∈ head, wsChar c = false) →
      buildSummaryCommentBody head summary =
        aiReviewCommentMarker ++ head ++ summarySeparator ++ summary ∧
      resolveBaseline
        (priorComments ++ [⟨some (buildSummaryCommentBody head summary)⟩])
        defaultBase = head := by
  intro priorComments head summary defaultBase hne hws
  constructor
  · rfl
  · unfold resolveBaseline
    have hpred : isReviewComment ⟨some (buildSummaryCommentBody head summary)⟩ = true := by
      unfold isReviewComment buildSummaryCommentBody
      exact strBegins_append_left _ _ _
        (strBegins_append_left _ _ _
          (strBegins_append_left _ _ _ (by
            have := strBegins_append_self aiReviewCommentMarker []
            simpa using this)))
    rw [show (priorComments ++
        [(⟨some (buildSummaryCommentBody head summary)⟩ : PRComment)]).reverse =
      ⟨some (buildSummaryCommentBody head summary)⟩ :: priorComments.reverse by
        simp]
    rw [List.find?_cons_of_pos _ hpred]
    simp only
    rw [extractBase_roundtrip head summary hne hws]

/-- Witness for C5: the round trip at a concrete head commit. -/
theorem claim_C5_witness :
    (str "abc123" ≠ ([] : Str)) ∧
    resolveBaseline [⟨some (buildSummaryCommentBody (str "abc123")
      (str "Looks good."))⟩] (str "prbase") = str "abc123" := by
  refine ⟨by decide, ?_⟩
  have h := claim_C5_marker_roundtrip [] (str "abc123") (str "Looks good.")
    (str "prbase") (by decide) (by decide)
  simpa using h.2

end LoneCodeGuardian
namespace LoneCodeGuardian

/-- Claim C7: baseline resolution over an empty comment list yields the
default base; comments whose bodies do not start with the marker are
ignored even when a SHA-looking substring occurs elsewhere in them; and a
marker comment with an empty commit token is treated as not found — the
resolver is total and degrades to the default base. -/
theorem claim_C7_baseline_fallbacks :
    ∀ (defaultBase : Str),
      resolveBaseline [] defaultBase = defaultBase ∧
      (∀ comments : List PRComment,
        (∀ c ∈ comments, ∀ b, c.body = some b →
          strBegins b aiReviewCommentMarker = false) →
        resolveBaseline comments defaultBase = defaultBase) ∧
      (∀ summaryTail : Str,
        resolveBaseline
          [⟨some (aiReviewCommentMarker ++ summarySeparator ++ summaryTail)⟩]
          defaultBase = defaultBase) := by
  intro defaultBase
  refine ⟨rfl, ?_, ?_⟩
  · intro comments h
    unfold resolveBaseline
    have hnone : comments.reverse.find? isReviewComment = none := by
      rw [List.find?_eq_none]
      intro c hc
      have hcm := List.mem_reverse.mp hc
      unfold isReviewComment
      cases hb : c.body with
      | none => simp
      | some b => simp [h c hcm b hb]
    rw [hnone]
  · intro summaryTail
    unfold resolveBaseline
    have hpred : isReviewComment
        ⟨some (aiReviewCommentMarker ++ summarySeparator ++ summaryTail)⟩ =
        true := by
      unfold isReviewComment
      exact strBegins_append_left _ _ _
        (strBegins_append_left _ _ _ (by
          simpa using strBegins_append_self aiReviewCommentMarker []))
    rw [show ([⟨some (aiReviewCommentMarker ++ summarySeparator ++
        summaryTail)⟩] : List PRComment).reverse =
      [⟨some (aiReviewCommentMarker ++ summarySeparator ++ summaryTail)⟩]
      from rfl]
    rw [List.find?_cons_of_pos _ hpred]
    simp only
    have hext : extractBaseFromBody
        (aiReviewCommentMarker ++ summarySeparator ++ summaryTail) = none := by
      have htake : takeBeforeSep summarySeparator
          (aiReviewCommentMarker ++ summarySeparator ++ summaryTail) =
          aiReviewCommentMarker := by
        rw [summarySeparator_cons]
        exact takeBeforeSep_append '\n' (str "\n### AI Review Summary:\n")
          aiReviewCommentMarker summaryTail marker_no_newline
      have hrep : replaceFirstStr aiReviewCommentMarker []
          aiReviewCommentMarker = [] := by
        have h2 := replaceFirstStr_of_begins aiReviewCommentMarker []
          aiReviewCommentMarker
          (by simpa using strBegins_append_self aiReviewCommentMarker [])
        simpa using h2
      unfold extractBaseFromBody
      rw [htake, hrep]
      rfl
    rw [hext]

/-- Witness for C7: a comment mentioning a SHA without the marker at the
start is ignored. -/
theorem claim_C7_witness :
    (∀ c ∈ ([⟨some (str "See commit abc123 for details")⟩] : List PRComment),
      ∀ b, c.body = some b → strBegins b aiReviewCommentMarker = false) ∧
    resolveBaseline [⟨some (str "See commit abc123 for details")⟩]
      (str "prbase") = str "prbase" := by
  have hyp : ∀ c ∈ ([⟨some (str "See commit abc123 for details")⟩] :
      List PRComment), ∀ b, c.body = some b →
      strBegins b aiReviewCommentMarker = false := by decide
  exact ⟨hyp, ((claim_C7_baseline_fallbacks (str "prbase")).2.1
    [⟨some (str "See commit abc123 for details")⟩] hyp)⟩

end LoneCodeGuardian
namespace LoneCodeGuardian

/-- Claim C9: when the schema-validated aggregation call throws, the summary
phase produces the synthesized fallback containing the `Reviewed N files`
text, the posted comment body contains that text too, and the run is never
left without a nonempty summary string. -/
theorem claim_C9_summary_fallback :
    ∀ (errMsg : Str) (n m : Nat) (head : Str),
      summaryPhase (.error errMsg) n m = fallbackSummary n m ∧
      hasSubstr (fallbackSummary n m)
        (str "Reviewed " ++ natToStr n ++ str " files") = true ∧
      (∀ aggregation, summaryPhase aggregation n m ≠ []) ∧
      hasSubstr
        (buildSummaryCommentBody head (summaryPhase (.error errMsg) n m))
        (str "Reviewed " ++ natToStr n ++ str " files") = true := by
  intro errMsg n m head
  have hkey : fallbackSummary n m =
      str "# Code Review Summary\n\n" ++
        ((str "Reviewed " ++ natToStr n ++ str " files") ++
          (str " and found " ++ natToStr m ++ str " issues.")) := by
    unfold fallbackSummary
    rw [show str "# Code Review Summary\n\nReviewed " =
        str "# Code Review Summary\n\n" ++ str "Reviewed " from rfl,
      show str " files and found " = str " files" ++ str " and found "
        from rfl]
    simp [List.append_assoc]
  refine ⟨rfl, ?_, ?_, ?_⟩
  · rw [hkey]
    simpa [List.append_assoc] using
      hasSubstr_append_mid (str "# Code Review Summary\n\n")
        (str "Reviewed " ++ natToStr n ++ str " files")
        (str " and found " ++ natToStr m ++ str " issues.")
  · intro aggregation
    cases aggregation with
    | error e =>
        show fallbackSummary n m ≠ []
        rw [hkey]
        exact append_ne_nil_left _ _ (by decide)
    | ok cr =>
        show renderCodeReviewSummary cr ≠ []
        unfold renderCodeReviewSummary
        repeat' apply append_ne_nil_left
        decide
  · show hasSubstr
      ((aiReviewCommentMarker ++ head ++ summarySeparator) ++
        fallbackSummary n m)
      (str "Reviewed " ++ natToStr n ++ str " files") = true
    rw [hkey]
    simpa [List.append_assoc] using
      hasSubstr_append_mid
        ((aiReviewCommentMarker ++ head ++ summarySeparator) ++
          str "# Code Review Summary\n\n")
        (str "Reviewed " ++ natToStr n ++ str " files")
        (str " and found " ++ natToStr m ++ str " issues.")

end LoneCodeGuardian
namespace LoneCodeGuardian

/-- The analysis loop for one file performs at most `remaining` steps. -/
theorem analyzeFile_steps_le (fn : Str) (o : Nat → Except Str ReviewStep)
    (hk : Bool) : ∀ (r : Nat) (b : Bool),
    (analyzeFile fn o hk r b).1 ≤ r := by
  intro r
  induction r with
  | zero => intro b; cases b <;> simp [analyzeFile]
  | succ n ih =>
      intro b
      cases b with
      | true => simp [analyzeFile]
      | false =>
          simp only [analyzeFile]
          have := ih (match o (maxStepsPerFile - (n + 1)) with
            | .ok st => st.analysisComplete
            | .error _ => true)
          omega

/-- Counterexample to claim C1: ten files whose analysis never completes
drive one hundred analysis steps — the per-file cap of 10 holds but there
is no global 50-step budget, so the claimed total bound of 50 fails. -/
theorem claim_C1_counterexample :
    (reviewRun (fun _ => .ok (str "x")) (fun _ _ => .ok ⟨false, []⟩) true
      tenFiles).1 = 100 ∧
    ¬((reviewRun (fun _ => .ok (str "x")) (fun _ _ => .ok ⟨false, []⟩) true
      tenFiles).1 ≤ 50) := by
  constructor
  · decide
  · decide

/-- Amended claim C1: the orchestrator performs at most 10 analysis steps
per file, hence at most `10 × (number of files)` in total; no separate
global 50-step budget exists in the code. -/
theorem claim_C1_amended_step_bounds :
    ∀ (files : List ChangedFile) (fetch : Str → Except Str Str)
      (oracle : Str → Nat → Except Str ReviewStep) (headKnown : Bool),
      (∀ (fn : Str) (o : Nat → Except Str ReviewStep) (b : Bool),
        (analyzeFile fn o headKnown maxStepsPerFile b).1 ≤ 10) ∧
      (reviewRun fetch oracle headKnown files).1 ≤ 10 * files.length := by
  intro files fetch oracle headKnown
  constructor
  · intro fn o b
    exact analyzeFile_steps_le fn o headKnown maxStepsPerFile b
  · induction files with
    | nil => simp [reviewRun]
    | cons f rest ih =>
        simp only [reviewRun]
        cases fetch f.filename with
        | error e => simp only; simp [List.length_cons]; omega
        | ok content =>
            simp only
            have h1 := analyzeFile_steps_le f.filename (oracle f.filename)
              headKnown maxStepsPerFile false
            have h2 : maxStepsPerFile = 10 := rfl
            simp [List.length_cons]
            omega

end LoneCodeGuardian
namespace LoneCodeGuardian

/-- Every comment posted by the per-file loop targets the current file and
passed the commentator's validation. -/
theorem analyzeFile_posts_valid (fn : Str) (o : Nat → Except Str ReviewStep)
    (hk : Bool) : ∀ (r : Nat) (b : Bool) (p : Str × Issue),
    p ∈ (analyzeFile fn o hk r b).2 →
    p.1 = fn ∧ issuePosted fn hk p.2 = true := by
  intro r
  induction r with
  | zero => intro b p hp; cases b <;> simp [analyzeFile] at hp
  | succ n ih =>
      intro b p hp
      cases b with
      | true => simp [analyzeFile] at hp
      | false =>
          simp only [analyzeFile] at hp
          rcases List.mem_append.mp hp with hpost | hrest
          · cases hres : o (maxStepsPerFile - (n + 1)) with
            | error e => rw [hres] at hpost; simp at hpost
            | ok st =>
                rw [hres] at hpost
                simp only at hpost
                obtain ⟨iss, _, hif⟩ := List.mem_filterMap.mp hpost
                by_cases hip : issuePosted fn hk iss = true
                · rw [if_pos hip] at hif
                  cases hif
                  exact ⟨rfl, hip⟩
                · rw [if_neg hip] at hif
                  cases hif
          · exact ih _ p hrest

/-- Claim C2 (amended): every posted review comment of the run references
the filename of a file in the filtered changed-file list (the loop posts
against the current file, not the issue's own path), requires the head
commit to be known, and has line numbers satisfying
`1 ≤ lineStart ≤ lineEnd`; the file's actual line count is never checked. -/
theorem claim_C2_amended_posted_validation :
    ∀ (files : List ChangedFile) (fetch : Str → Except Str Str)
      (oracle : Str → Nat → Except Str ReviewStep) (headKnown : Bool)
      (p : Str × Issue),
      p ∈ (reviewRun fetch oracle headKnown files).2 →
      (∃ f ∈ files, p.1 = f.filename) ∧ headKnown = true ∧
      1 ≤ p.2.lineStart ∧ p.2.lineStart ≤ p.2.lineEnd := by
  intro files fetch oracle headKnown p hp
  have main : (∃ f ∈ files, p.1 = f.filename) ∧
      issuePosted p.1 headKnown p.2 = true := by
    induction files with
    | nil => simp [reviewRun] at hp
    | cons f rest ih =>
        simp only [reviewRun] at hp
        cases hfetch : fetch f.filename with
        | error e =>
            rw [hfetch] at hp
            simp only at hp
            obtain ⟨⟨g, hg, hpg⟩, hpost⟩ := ih hp
            exact ⟨⟨g, List.mem_cons_of_mem f hg, hpg⟩, hpost⟩
        | ok content =>
            rw [hfetch] at hp
            simp only at hp
            rcases List.mem_append.mp hp with hone | htail
            · obtain ⟨hfn, hpost⟩ := analyzeFile_posts_valid f.filename
                (oracle f.filename) headKnown maxStepsPerFile false p hone
              refine ⟨⟨f, List.mem_cons_self f rest, hfn⟩, ?_⟩
              rw [hfn]
              exact hpost
            · obtain ⟨⟨g, hg, hpg⟩, hpost⟩ := ih htail
              exact ⟨⟨g, List.mem_cons_of_mem f hg, hpg⟩, hpost⟩
  have hpost := main.2
  unfold issuePosted commentPosted at hpost
  simp only [Bool.and_eq_true, Bool.not_eq_true', Bool.or_eq_false_iff,
    decide_eq_false_iff_not] at hpost
  obtain ⟨⟨⟨h1, h2⟩, hhead⟩, hs, he⟩ := hpost
  exact ⟨main.1, hhead, by omega, by omega⟩

/-- Counterexample to claim C2 as stated: an issue with `lineStart = 5` on
a two-line file is posted (the commentator validates only
`1 ≤ start ≤ end`, not the file's line count). -/
theorem claim_C2_counterexample :
    (reviewRun (fun _ => .ok c2Content) c2Oracle true [c2File]).2 =
      [(str "src/a.ts", c2Issue)] ∧
    c2Issue.lineStart = 5 ∧ lineCount c2Content = 2 ∧
    ¬(c2Issue.lineStart ≤ (lineCount c2Content : Int)) := by
  refine ⟨by decide, by decide, by decide, by decide⟩

end LoneCodeGuardian
namespace LoneCodeGuardian

/-- Witness for the amended C2: the concrete posted comment of the
counterexample run indeed satisfies the amended validation properties. -/
theorem claim_C2_witness :
    (str "src/a.ts", c2Issue) ∈
      (reviewRun (fun _ => .ok c2Content) c2Oracle true [c2File]).2 ∧
    ((∃ f ∈ [c2File], (str "src/a.ts", c2Issue).1 = f.filename) ∧
      true = true ∧ 1 ≤ c2Issue.lineStart ∧
      c2Issue.lineStart ≤ c2Issue.lineEnd) :=
  ⟨by decide,
    claim_C2_amended_posted_validation [c2File] (fun _ => .ok c2Content)
      c2Oracle true (str "src/a.ts", c2Issue) (by decide)⟩

/-- The code-side filter agrees with the suffix/prefix reading of the
inclusion rule. -/
theorem isFileToReview_iff (incExt excExt incPaths excPaths : List Str)
    (nf : Str) :
    isFileToReview incExt excExt incPaths excPaths nf = true ↔
      ((incExt = [] ∨ ∃ t ∈ incExt, strEnds (normalizePath nf) t = true) ∧
        (∀ t ∈ excExt, strEnds (normalizePath nf) t = false) ∧
        (incPaths = [] ∨ ∃ t ∈ incPaths, strBegins (normalizePath nf) t = true) ∧
        (∀ t ∈ excPaths, strBegins (normalizePath nf) t = false)) := by
  unfold isFileToReview
  simp only [Bool.and_eq_true, Bool.or_eq_true, Bool.not_eq_true',
    Bool.and_eq_false_iff, List.isEmpty_iff, List.any_eq_true,
    List.any_eq_false, Bool.not_eq_true]
  constructor
  · rintro ⟨⟨⟨hinc, hexc⟩, hip⟩, hep⟩
    refine ⟨?_, ?_, ?_, ?_⟩
    · rcases hinc with h | ⟨t, ht, hm⟩
      · exact Or.inl h
      · exact Or.inr ⟨t, ht, hm⟩
    · intro t ht
      rcases hexc with h | h
      · have hnil : excExt = [] := by simpa using h
        rw [hnil] at ht
        simp at ht
      · exact h t ht
    · rcases hip with h | ⟨t, ht, hm⟩
      · exact Or.inl h
      · exact Or.inr ⟨t, ht, hm⟩
    · intro t ht
      rcases hep with h | h
      · have hnil : excPaths = [] := by simpa using h
        rw [hnil] at ht
        simp at ht
      · exact h t ht
  · rintro ⟨hinc, hexc, hip, hep⟩
    refine ⟨⟨⟨?_, Or.inr hexc⟩, ?_⟩, Or.inr hep⟩
    · rcases hinc with h | ⟨t, ht, hm⟩
      · exact Or.inl h
      · exact Or.inr ⟨t, ht, hm⟩
    · rcases hip with h | ⟨t, ht, hm⟩
      · exact Or.inl h
      · exact Or.inr ⟨t, ht, hm⟩

/-- Claim C8 (amended): a changed file is kept by the filter exactly when
the normalized filename *ends with* some include-extension token (or that
list is empty), ends with no exclude-extension token, *starts with* some
include-path token (or that list is empty), and starts with no
exclude-path token — the matching mode is determined by which list a token
belongs to, not by the token's shape; tokens are trimmed,
separator-normalized, and auto-suffixed with `/` unless they start
with `.`. -/
theorem claim_C8_amended_filter_spec :
    ∀ (files : List ChangedFile)
      (includeExtensions excludeExtensions includePaths excludePaths :
        Option Str) (f : ChangedFile),
      f ∈ getFilteredChangedFiles files includeExtensions excludeExtensions
        includePaths excludePaths ↔
      f ∈ files ∧ amendedC8KeepsFile includeExtensions excludeExtensions
        includePaths excludePaths f.filename := by
  intro files ie ee ip ep f
  unfold getFilteredChangedFiles amendedC8KeepsFile
  rw [List.mem_filter]
  constructor
  · rintro ⟨hf, hkeep⟩
    refine ⟨hf, ?_⟩
    have h2 := (isFileToReview_iff (stringToArray ie) (stringToArray ee)
      (stringToArray ip) (stringToArray ep)
      (normalizePath f.filename)).mp hkeep
    rwa [normalizePath_idem] at h2
  · rintro ⟨hf, hkeep⟩
    refine ⟨hf, ?_⟩
    apply (isFileToReview_iff (stringToArray ie) (stringToArray ee)
      (stringToArray ip) (stringToArray ep)
      (normalizePath f.filename)).mpr
    rwa [normalizePath_idem]

/-- Counterexample to claim C8 as stated: with the dot-less
exclude-extension token `test`, the code keeps `test/foo.c` (the token is
suffix-matched as `test/`), while the claim's shape-driven rule treats it
as the path prefix `test/` and excludes the file. -/
theorem claim_C8_counterexample :
    getFilteredChangedFiles [c8File] none (some (str "test")) none none =
      [c8File] ∧
    ¬ claimC8KeepsFile none (some (str "test")) none none c8File.filename := by
  constructor
  · decide
  · intro h
    have h2 := h.2.1 (str "test/") (by decide)
    simp [claimTokenMatches] at h2
    revert h2
    decide

end LoneCodeGuardian
namespace LoneCodeGuardian

/-- The fold of the relocation heuristic preserves the invariant that the
best candidate is the original line or scores strictly higher. -/
theorem relocateFold_invariant (descToks : List Str) (lines : List Str)
    (orig : Nat) (w : List Nat) :
    ∀ (ns : List Nat) (acc : Nat),
      (∀ n ∈ ns, n ∈ w) →
      (acc = orig ∨ (acc ∈ w ∧
        scoreLine descToks (lineAt lines acc) >
          scoreLine descToks (lineAt lines orig))) →
      (ns.foldl (fun best n =>
          if scoreLine descToks (lineAt lines n) >
              scoreLine descToks (lineAt lines best) then n
          else best) acc = orig ∨
        (ns.foldl (fun best n =>
          if scoreLine descToks (lineAt lines n) >
              scoreLine descToks (lineAt lines best) then n
          else best) acc ∈ w ∧
          scoreLine descToks (lineAt lines (ns.foldl (fun best n =>
            if scoreLine descToks (lineAt lines n) >
                scoreLine descToks (lineAt lines best) then n
            else best) acc)) >
          scoreLine descToks (lineAt lines orig))) := by
  intro ns
  induction ns with
  | nil => intro acc _ hacc; exact hacc
  | cons n rest ih =>
      intro acc hmem hacc
      simp only [List.foldl_cons]
      apply ih
      · intro x hx
        exact hmem x (List.mem_cons_of_mem n hx)
      · by_cases hgt : scoreLine descToks (lineAt lines n) >
            scoreLine descToks (lineAt lines acc)
        · rw [if_pos hgt]
          refine Or.inr ⟨hmem n (List.mem_cons_self n rest), ?_⟩
          rcases hacc with h | ⟨_, h⟩
          · rw [h] at hgt; exact hgt
          · exact lt_trans h hgt
        · rw [if_neg hgt]
          exact hacc

/-- Claim C6: `findBetterMatchingLine` is a pure deterministic function of
its inputs (equal inputs give equal results), and its result is either the
original line (which wins all ties) or a candidate of the ±10-line window
scoring strictly higher than the original under the relevance scoring. -/
theorem claim_C6_relocation_deterministic :
    ∀ (description : Str) (lines : List Str) (orig : Nat),
      (∀ d2 l2 o2, d2 = description → l2 = lines → o2 = orig →
        findBetterMatchingLine d2 l2 o2 =
          findBetterMatchingLine description lines orig) ∧
      (findBetterMatchingLine description lines orig = orig ∨
        (findBetterMatchingLine description lines orig ∈
            candidateWindow orig lines.length ∧
          scoreLine (tokenize description)
            (lineAt lines (findBetterMatchingLine description lines orig)) >
          scoreLine (tokenize description) (lineAt lines orig))) := by
  intro description lines orig
  constructor
  · intro d2 l2 o2 hd hl ho
    rw [hd, hl, ho]
  · unfold findBetterMatchingLine
    exact relocateFold_invariant (tokenize description) lines orig
      (candidateWindow orig lines.length)
      (candidateWindow orig lines.length) orig
      (fun n hn => hn) (Or.inl rfl)

/-- Witness for C6: determinism and the scoring characterization at a
concrete description and file. -/
theorem claim_C6_witness :
    (str "missing null check" = str "missing null check") ∧
    findBetterMatchingLine (str "missing null check")
      [str "const missing = check(null);", str "let x = 1;"] 2 =
    findBetterMatchingLine (str "missing null check")
      [str "const missing = check(null);", str "let x = 1;"] 2 :=
  ⟨rfl,
    (claim_C6_relocation_deterministic (str "missing null check")
      [str "const missing = check(null);", str "let x = 1;"] 2).1
      (str "missing null check")
      [str "const missing = check(null);", str "let x = 1;"] 2 rfl rfl rfl⟩

end LoneCodeGuardian
namespace LoneCodeGuardian

/-- One atomic segment preserves data soundness: the cache keeps only
upstream-derived entries, the stepped session stays sound, and the
session list of the world component is untouched. -/
theorem stepCacheSession_preserves (upstream : Str → Str) (w : CacheWorld) :
    ∀ (s : CacheSession), (∀ kv ∈ w.cache, kv.2 = upstream kv.1) →
    sessionOK upstream s →
    (∀ kv ∈ (stepCacheSession upstream w s).1.cache, kv.2 = upstream kv.1) ∧
    sessionOK upstream (stepCacheSession upstream w s).2 ∧
    (stepCacheSession upstream w s).1.sessions = w.sessions := by
  rintro ⟨path, sl, el, pc⟩ hcache hs
  cases pc with
  | donePC r => exact ⟨hcache, hs, rfl⟩
  | failedPC m => exact ⟨hcache, hs, rfl⟩
  | waitFirst p =>
      by_cases hl : w.lockHeld
      · cases p with
        | zero =>
            simp only [stepCacheSession, hl, if_true]
            refine ⟨hcache, ⟨?_, ?_⟩, ?_⟩
            · intro a b hab; cases hab
            · intro r hr; cases hr
            · trivial
        | succ q =>
            simp only [stepCacheSession, hl, if_true]
            refine ⟨hcache, ⟨?_, ?_⟩, ?_⟩
            · intro a b hab; cases hab
            · intro r hr; cases hr
            · trivial
      · cases hget : cacheGet w.cache path with
        | some c =>
            have hc : c = upstream path := by
              unfold cacheGet at hget
              cases hfind : w.cache.find? (fun kv => kv.1 == path) with
              | none => rw [hfind] at hget; cases hget
              | some kv =>
                  rw [hfind] at hget
                  cases hget
                  have hmem := List.mem_of_find?_eq_some hfind
                  have hpkv := List.find?_some hfind
                  rw [hcache kv hmem, beq_iff_eq.mp hpkv]
            simp only [stepCacheSession, hl, if_false, Bool.false_eq_true, hget]
            refine ⟨hcache, ⟨?_, ?_⟩, ?_⟩
            · intro a b hab; cases hab
            · intro r hr
              cases hr
              rw [hc]
            · trivial
        | none =>
            simp only [stepCacheSession, hl, if_false, Bool.false_eq_true, hget]
            refine ⟨hcache, ⟨?_, ?_⟩, ?_⟩
            · intro a b hab; cases hab
            · intro r hr; cases hr
            · trivial
  | fetchWait =>
      simp only [stepCacheSession]
      refine ⟨hcache, ⟨?_, ?_⟩, ?_⟩
      · intro p c hpc2
        cases hpc2
        rfl
      · intro r hr; cases hr
      · trivial
  | waitSecond p c =>
      have hcup : c = upstream path := hs.1 p c rfl
      by_cases hl : w.lockHeld
      · cases p with
        | zero =>
            simp only [stepCacheSession, hl, if_true]
            refine ⟨hcache, ⟨?_, ?_⟩, ?_⟩
            · intro a b hab; cases hab
            · intro r hr; cases hr
            · trivial
        | succ q =>
            simp only [stepCacheSession, hl, if_true]
            refine ⟨hcache, ⟨?_, ?_⟩, ?_⟩
            · intro a b hab
              cases hab
              exact hcup
            · intro r hr; cases hr
            · trivial
      · simp only [stepCacheSession, hl, if_false, Bool.false_eq_true]
        refine ⟨?_, ⟨?_, ?_⟩, ?_⟩
        · intro kv hkv
          rcases List.mem_cons.mp hkv with h | h
          · rw [h]; exact hcup
          · exact hcache kv h
        · intro a b hab; cases hab
        · intro r hr
          cases hr
          rw [hcup]
        · trivial

/-- One scheduled step preserves data soundness of the world. -/
theorem worldOK_step (upstream : Str → Str) (w : CacheWorld) (i : Nat)
    (h : worldOK upstream w) :
    worldOK upstream (stepCacheWorld upstream w i) := by
  unfold stepCacheWorld
  cases hsi : w.sessions[i]? with
  | none => exact h
  | some s =>
      have hmem : s ∈ w.sessions := by
        obtain ⟨hi, rfl⟩ := List.getElem?_eq_some.mp hsi
        exact List.getElem_mem hi
      obtain ⟨hcache, hsess⟩ := h
      obtain ⟨hc2, hs2, hunch⟩ :=
        stepCacheSession_preserves upstream w s hcache (hsess s hmem)
      refine ⟨hc2, ?_⟩
      intro s2 hs2mem
      simp only at hs2mem
      rcases List.mem_or_eq_of_mem_set hs2mem with hold | hnew
      · exact hsess s2 hold
      · rw [hnew]
        exact hs2
/-- Every schedule preserves data soundness of the world. -/
theorem worldOK_run (upstream : Str → Str) :
    ∀ (sched : List Nat) (w : CacheWorld), worldOK upstream w →
      worldOK upstream (runCacheSchedule upstream w sched) := by
  intro sched
  induction sched with
  | nil => intro w h; exact h
  | cons i rest ih =>
      intro w h
      exact ih (stepCacheWorld upstream w i) (worldOK_step upstream w i h)

end LoneCodeGuardian
namespace LoneCodeGuardian

/-- A caller polling a lock that is never released times out after its
poll budget instead of deadlocking. -/
theorem lock_starvation_times_out (upstream : Str → Str) :
    ∀ (p : Nat) (w : CacheWorld) (path : Str) (a b : Nat),
      w.lockHeld = true →
      w.sessions = [⟨path, a, b, .waitFirst p⟩] →
      ∃ s2 : CacheSession,
        (runCacheSchedule upstream w (List.replicate (p + 1) 0)).sessions =
          [s2] ∧ s2.pc = .failedPC cacheTimeoutMsg := by
  intro p
  induction p with
  | zero =>
      intro w path a b hl hsess
      refine ⟨⟨path, a, b, .failedPC cacheTimeoutMsg⟩, ?_, rfl⟩
      show (stepCacheWorld upstream w 0).sessions = _
      unfold stepCacheWorld
      rw [hsess]
      simp [stepCacheSession, hl]
  | succ q ih =>
      intro w path a b hl hsess
      rw [show List.replicate (q + 1 + 1) 0 = 0 :: List.replicate (q + 1) 0
        from rfl]
      show ∃ s2, (runCacheSchedule upstream (stepCacheWorld upstream w 0)
        (List.replicate (q + 1) 0)).sessions = [s2] ∧
        s2.pc = .failedPC cacheTimeoutMsg
      apply ih (stepCacheWorld upstream w 0) path a b
      · unfold stepCacheWorld
        rw [hsess]
        simp [stepCacheSession, hl]
      · unfold stepCacheWorld
        rw [hsess]
        simp [stepCacheSession, hl]

/-- Claim C3 (amended): a concurrent request for the same uncached path can
invoke the upstream fetch a second time (the lock is released for the
duration of the fetch), but every completed caller still receives the slice
of the one upstream content of its path (so callers with equal requests get
identical content); once the full content is cached, a request for any line
range — in particular a different one — is served in a single step with no
further fetch; and a caller that polls a lock which is never released gets
the cache-timeout error after its 5-second budget rather than
deadlocking. -/
theorem claim_C3_amended_cache_behavior :
    ∀ (upstream : Str → Str),
      (∀ (w : CacheWorld) (sched : List Nat), worldOK upstream w →
        ∀ s ∈ (runCacheSchedule upstream w sched).sessions, ∀ r,
          s.pc = .donePC r →
          r = renderSlice s.path (upstream s.path) s.startLine s.endLine) ∧
      (∀ (w : CacheWorld) (i : Nat) (s : CacheSession) (p : Nat) (v : Str),
        w.lockHeld = false → w.sessions[i]? = some s →
        s.pc = .waitFirst p → cacheGet w.cache s.path = some v →
        (stepCacheWorld upstream w i).fetchCount = w.fetchCount ∧
        (stepCacheWorld upstream w i).sessions = w.sessions.set i
          { s with
            pc := SessionPC.donePC (renderSlice s.path v s.startLine s.endLine) }) ∧
      (∀ (p : Nat) (w : CacheWorld) (path : Str) (a b : Nat),
        w.lockHeld = true → w.sessions = [⟨path, a, b, .waitFirst p⟩] →
        ∃ s2 : CacheSession,
          (runCacheSchedule upstream w (List.replicate (p + 1) 0)).sessions =
            [s2] ∧ s2.pc = .failedPC cacheTimeoutMsg) := by
  intro upstream
  refine ⟨?_, ?_, lock_starvation_times_out upstream⟩
  · intro w sched hOK s hmem r hr
    have hfinal := worldOK_run upstream sched w hOK
    exact (hfinal.2 s hmem).2 r hr
  · rintro w i ⟨sp, sa, sb, spc⟩ p v hl hsi hpc hget
    cases hpc
    unfold stepCacheWorld
    rw [hsi]
    simp only [stepCacheSession, hl, Bool.false_eq_true, if_false]
    simp only at hget
    rw [hget]
    exact ⟨rfl, rfl⟩

/-- Witness for the amended C3: with the full content already cached from a
first request, a session asking for a different line range of the same path
completes without raising the fetch count. -/
theorem claim_C3_witness :
    cacheGet [(str "p", str "a\nb")] (str "p") = some (str "a\nb") ∧
    (stepCacheWorld c3Upstream
      ⟨false, [(str "p", str "a\nb")], 1, [freshSession (str "p") 3 4]⟩
      0).fetchCount = 1 :=
  ⟨by decide,
    ((claim_C3_amended_cache_behavior c3Upstream).2.1
      ⟨false, [(str "p", str "a\nb")], 1, [freshSession (str "p") 3 4]⟩ 0
      (freshSession (str "p") 3 4) lockTimeoutPolls (str "a\nb")
      rfl (by decide) rfl (by decide)).1⟩

/-- Counterexample to claim C3 as stated: under the interleaving in which
both concurrent sessions for the same uncached path observe a cache miss
before either fetch completes, the upstream fetch runs twice — not exactly
once — even though both callers end with identical content. -/
theorem claim_C3_counterexample :
    (runCacheSchedule c3Upstream c3World c3Schedule).fetchCount = 2 ∧
    ¬((runCacheSchedule c3Upstream c3World c3Schedule).fetchCount = 1) ∧
    (runCacheSchedule c3Upstream c3World c3Schedule).sessions.map
        (fun s => s.pc) =
      [.donePC (renderSlice (str "p") (str "a\nb") 1 2),
       .donePC (renderSlice (str "p") (str "a\nb") 1 2)] := by
  refine ⟨by decide, by decide, by decide⟩

end LoneCodeGuardian
